import Mathlib

/-!
Verification development for the home-assistant voice pipeline.

Shallow embedding of the repository's core components:
  * the capability registry and dispatch (src/tools/__init__.py),
  * the tool-orchestration loop (src/assistant.py, process_message),
  * silence endpointing (src/audio.py, record_until_silence),
  * wake-word gating (src/wake_word.py, detect / wait_for_wake_word),
  * the voice turn loop and audio lock (src/main.py, run_voice /
    start_timer_daemon),
  * timer time parsing (src/tools/timer.py, _parse_time_input).

External collaborators (OpenAI services, VAD, wake model, sound device)
are modelled as scripted inputs; machine integers do not occur (all the
relevant Python arithmetic is on unbounded ints / list lengths).
-/

namespace HomeAssistant

/-! ## Capability registry and dispatch (src/tools/__init__.py)

`_TOOL_FUNCTIONS` is a dict from tool name to handler; `execute_tool`
looks up the name, returning a textual error for unknown names, and
catches any exception a handler raises, turning it into a textual error
result.  A Python handler is modelled as a function from structured
arguments to `ExecResult`: either a returned string or a raised
exception carrying a message. -/

/-- Structured arguments of a capability invocation (the decoded JSON
object `args` passed as keyword arguments), modelled as key/value pairs. -/
abbrev ToolArgs := List (String × String)

/-- Outcome of calling a Python handler: a returned string, or a raised
exception with its message. -/
inductive ExecResult where
  | ok (s : String)
  | exn (msg : String)
  deriving DecidableEq

/-- The registry `_TOOL_FUNCTIONS` (dict with unique keys), as an
association list from name to handler. -/
abbrev Registry := List (String × (ToolArgs → ExecResult))

/-- Dict lookup `_TOOL_FUNCTIONS.get(name)` (first match wins). -/
def lookupTool : Registry → String → Option (ToolArgs → ExecResult)
  | [], _ => none
  | (n, f) :: rest, name => if n = name then some f else lookupTool rest name

/-- A single-quote character, used in the unknown-tool error text. -/
def squote : String := (Char.ofNat 39).toString

/-- The text returned for an unregistered tool name. -/
def unknownToolMessage (name : String) : String :=
  "Error: Unknown tool " ++ squote ++ name ++ squote

/-- The text returned when a handler raises an exception. -/
def executeErrorMessage (name msg : String) : String :=
  "Error executing " ++ name ++ ": " ++ msg

/-- `execute_tool` from src/tools/__init__.py: unknown names and handler
exceptions become textual error results; otherwise the handler's string
is returned. -/
def execute_tool (reg : Registry) (name : String) (args : ToolArgs) : String :=
  match lookupTool reg name with
  | none => unknownToolMessage name
  | some f =>
    match f args with
    | ExecResult.ok s => s
    | ExecResult.exn e => executeErrorMessage name e

/-! ## Tool orchestration loop (src/assistant.py, process_message) -/

/-- One requested capability invocation carried by an assistant message
(`ChatCompletionMessageToolCall`): correlation id, function name, and
already-decoded arguments. -/
structure ToolCall where
  id : String
  name : String
  args : ToolArgs
  deriving DecidableEq

/-- A chat message as stored in the `messages` history list. -/
inductive Msg where
  | system (content : String)
  | user (content : String)
  | assistant (content : Option String) (tool_calls : List ToolCall)
  | tool (tool_call_id : String) (content : String)
  deriving DecidableEq

/-- A chat-completion response: optional text plus the list of requested
capability invocations (`message.tool_calls`, `None` modelled as `[]`). -/
structure Response where
  content : Option String
  tool_calls : List ToolCall

/-- One entry of `tracked_tool_calls`: name, arguments, result. -/
structure TrackedCall where
  name : String
  args : ToolArgs
  result : String
  deriving DecidableEq

/-- A record that `execute_tool` was invoked with a given name and
arguments: the invocation log of one run (one entry per handler call,
in call order). -/
structure HandlerCall where
  name : String
  args : ToolArgs
  deriving DecidableEq

/-- `ConversationResult` from src/assistant.py. -/
structure ConversationResult where
  user_input : String
  final_response : String
  tool_calls : List TrackedCall
  deriving DecidableEq

/-- The tool message appended to history for one executed invocation. -/
def toolResultMsg (reg : Registry) (tc : ToolCall) : Msg :=
  Msg.tool tc.id (execute_tool reg tc.name tc.args)

/-- The tracked record appended for one executed invocation. -/
def trackedOf (reg : Registry) (tc : ToolCall) : TrackedCall :=
  ⟨tc.name, tc.args, execute_tool reg tc.name tc.args⟩

/-- The invocation-log entry for one executed invocation. -/
def handlerCallOf (tc : ToolCall) : HandlerCall :=
  ⟨tc.name, tc.args⟩

/-- Body of the `for tool_call in tool_calls` loop in process_message:
execute the tool, append the tool message to history, append the tracked
record, and log the handler call. -/
def roundStep (reg : Registry)
    (acc : List Msg × List TrackedCall × List HandlerCall) (tc : ToolCall) :
    List Msg × List TrackedCall × List HandlerCall :=
  (acc.1 ++ [toolResultMsg reg tc],
   acc.2.1 ++ [trackedOf reg tc],
   acc.2.2 ++ [handlerCallOf tc])

/-- One round of the orchestration loop after a response with tool calls:
append the assistant message carrying the requests, then run the
per-invocation loop over the requests in order. -/
def processRound (reg : Registry) (resp : Response)
    (ms : List Msg) (tr : List TrackedCall) (lg : List HandlerCall) :
    List Msg × List TrackedCall × List HandlerCall :=
  resp.tool_calls.foldl (roundStep reg)
    (ms ++ [Msg.assistant resp.content resp.tool_calls], tr, lg)

/-- The `while True` loop of process_message, fuel-bounded (the source
has no round cap; `none` models fuel exhaustion).  The chat-completion
service is a scripted function from the submitted history to a
response. -/
def process_message_loop (reg : Registry) (client : List Msg → Response)
    (user_message : String) :
    Nat → List Msg → List TrackedCall → List HandlerCall →
    Option ConversationResult × List HandlerCall
  | 0, _, _, lg => (none, lg)
  | fuel + 1, ms, tr, lg =>
    let resp := client ms
    match resp.tool_calls with
    | [] => (some ⟨user_message, resp.content.getD "", tr⟩, lg)
    | _ :: _ =>
      let r := processRound reg resp ms tr lg
      process_message_loop reg client user_message fuel r.1 r.2.1 r.2.2

/-- `process_message` from src/assistant.py: initial history is the
system prompt plus the user message. -/
def process_message (reg : Registry) (client : List Msg → Response)
    (sysPrompt user_message : String) (fuel : Nat) :
    Option ConversationResult × List HandlerCall :=
  process_message_loop reg client user_message fuel
    [Msg.system sysPrompt, Msg.user user_message] [] []

lemma foldl_roundStep (reg : Registry) :
    ∀ (tcs : List ToolCall) (ms : List Msg) (tr : List TrackedCall)
      (lg : List HandlerCall),
      tcs.foldl (roundStep reg) (ms, tr, lg) =
        (ms ++ tcs.map (toolResultMsg reg),
         tr ++ tcs.map (trackedOf reg),
         lg ++ tcs.map handlerCallOf)
  | [], ms, tr, lg => by simp
  | tc :: rest, ms, tr, lg => by
    simp only [List.foldl_cons, List.map_cons]
    rw [show roundStep reg (ms, tr, lg) tc =
          (ms ++ [toolResultMsg reg tc], tr ++ [trackedOf reg tc],
           lg ++ [handlerCallOf tc]) from rfl]
    rw [foldl_roundStep reg rest]
    simp

lemma processRound_eq (reg : Registry) (resp : Response)
    (ms : List Msg) (tr : List TrackedCall) (lg : List HandlerCall) :
    processRound reg resp ms tr lg =
      (ms ++ [Msg.assistant resp.content resp.tool_calls]
          ++ resp.tool_calls.map (toolResultMsg reg),
       tr ++ resp.tool_calls.map (trackedOf reg),
       lg ++ resp.tool_calls.map handlerCallOf) := by
  unfold processRound
  rw [foldl_roundStep]

/-- C1: in every round of the process_message loop whose chat response
carries at least one capability-invocation request, each of the N
handlers is invoked exactly once (one invocation-log entry per request,
in request order), and the history resubmitted to the chat-completion
service is the previous history followed by the assistant message
carrying the requests followed by the N tool-result messages in request
order. -/
theorem c1_round_order (reg : Registry) (client : List Msg → Response)
    (user_message : String) (fuel : Nat) (ms : List Msg)
    (tr : List TrackedCall) (lg : List HandlerCall)
    (h : (client ms).tool_calls ≠ []) :
    process_message_loop reg client user_message (fuel + 1) ms tr lg =
      process_message_loop reg client user_message fuel
        (ms ++ [Msg.assistant (client ms).content (client ms).tool_calls]
            ++ (client ms).tool_calls.map (toolResultMsg reg))
        (tr ++ (client ms).tool_calls.map (trackedOf reg))
        (lg ++ (client ms).tool_calls.map handlerCallOf) := by
  rw [process_message_loop]
  rcases htc : (client ms).tool_calls with _ | ⟨a, l⟩
  · exact absurd htc h
  · simp only [htc]
    rw [show processRound reg (client ms) ms tr lg =
          ((processRound reg (client ms) ms tr lg).1,
           (processRound reg (client ms) ms tr lg).2.1,
           (processRound reg (client ms) ms tr lg).2.2) from rfl,
        processRound_eq reg (client ms) ms tr lg]
    simp [htc]

/-- First scripted tool call used in witnesses. -/
def tcW1 : ToolCall := ⟨"call1", "get_weather", [("location", "NYC")]⟩

/-- Second scripted tool call used in witnesses. -/
def tcW2 : ToolCall := ⟨"call2", "get_current_time", []⟩

/-- Witness registry: one normal handler and one handler that raises. -/
def regW : Registry :=
  [("get_weather", fun _ => ExecResult.ok "Sunny, 72F"),
   ("get_current_time", fun _ => ExecResult.exn "boom")]

/-- Scripted chat-completion stub: requests two capabilities in the
first round, then finishes. -/
def clientW : List Msg → Response := fun ms =>
  if ms.length ≤ 2 then ⟨none, [tcW1, tcW2]⟩ else ⟨some "done", []⟩

/-- Initial scripted history for the witnesses. -/
def msW : List Msg := [Msg.system "sys", Msg.user "weather?"]

/-- Witness for C1 at the scripted two-capability round. -/
theorem c1_round_order_witness :
    process_message_loop regW clientW "weather?" 2 msW [] [] =
      process_message_loop regW clientW "weather?" 1
        (msW ++ [Msg.assistant (clientW msW).content (clientW msW).tool_calls]
            ++ (clientW msW).tool_calls.map (toolResultMsg regW))
        ([] ++ (clientW msW).tool_calls.map (trackedOf regW))
        ([] ++ (clientW msW).tool_calls.map handlerCallOf) :=
  c1_round_order regW clientW "weather?" 1 msW [] [] (by decide)

/-- C8: an invocation whose name matches no registered capability yields
the descriptive unknown-tool text, an invocation whose handler raises
yields the descriptive execution-error text, and in a round both error
results are appended to the message history and recorded among the
tracked invocations exactly like ordinary capability results. -/
theorem c8_capability_errors (reg : Registry) (tc1 tc2 : ToolCall)
    (f : ToolArgs → ExecResult) (e : String) (content : Option String)
    (ms : List Msg) (tr : List TrackedCall) (lg : List HandlerCall)
    (h1 : lookupTool reg tc1.name = none)
    (h2 : lookupTool reg tc2.name = some f)
    (h3 : f tc2.args = ExecResult.exn e) :
    execute_tool reg tc1.name tc1.args = unknownToolMessage tc1.name ∧
    execute_tool reg tc2.name tc2.args = executeErrorMessage tc2.name e ∧
    (processRound reg ⟨content, [tc1, tc2]⟩ ms tr lg).1 =
      ms ++ [Msg.assistant content [tc1, tc2]]
         ++ [Msg.tool tc1.id (unknownToolMessage tc1.name),
             Msg.tool tc2.id (executeErrorMessage tc2.name e)] ∧
    (processRound reg ⟨content, [tc1, tc2]⟩ ms tr lg).2.1 =
      tr ++ [⟨tc1.name, tc1.args, unknownToolMessage tc1.name⟩,
             ⟨tc2.name, tc2.args, executeErrorMessage tc2.name e⟩] := by
  have e1 : execute_tool reg tc1.name tc1.args = unknownToolMessage tc1.name := by
    simp [execute_tool, h1]
  have e2 : execute_tool reg tc2.name tc2.args = executeErrorMessage tc2.name e := by
    simp [execute_tool, h2, h3]
  refine ⟨e1, e2, ?_, ?_⟩
  · rw [processRound_eq]
    simp [toolResultMsg, e1, e2]
  · rw [processRound_eq]
    simp [trackedOf, e1, e2]

/-- Unknown-name tool call used in the C8 witness. -/
def tcW3 : ToolCall := ⟨"call3", "no_such_tool", []⟩

/-- Witness for C8: unknown name and raising handler at the scripted
registry. -/
theorem c8_capability_errors_witness :
    execute_tool regW tcW3.name tcW3.args = unknownToolMessage tcW3.name ∧
    execute_tool regW tcW2.name tcW2.args = executeErrorMessage tcW2.name "boom" :=
  ⟨(c8_capability_errors regW tcW3 tcW2 (fun _ => ExecResult.exn "boom") "boom"
      none [] [] [] rfl rfl rfl).1,
   (c8_capability_errors regW tcW3 tcW2 (fun _ => ExecResult.exn "boom") "boom"
      none [] [] [] rfl rfl rfl).2.1⟩

/-! ## Silence endpointing (src/audio.py, record_until_silence)

The stream is modelled as a list of read results: `none` for a timed-out
`stream.read` (the `continue` branch, which still consumes one iteration
of `for _ in range(max_frames)`), and `some sp` for a captured frame
whose VAD classification is `sp` (`vad.is_speech`).  A recorded frame is
represented by its classification; `max_silent_frames` and `max_frames`
are the integer frame counts the source computes from the configured
durations (`int(d * 1000 / FRAME_DURATION_MS)`). -/

/-- Frame duration in milliseconds (src/audio.py). -/
def FRAME_DURATION_MS : Nat := 30

/-- The `for _ in range(max_frames)` loop of record_until_silence: fuel
is the remaining iteration count; `frames`/`silent` are the accumulated
frame list and the consecutive-silence counter. -/
def recordAux (maxSilent : Nat) :
    Nat → List (Option Bool) → List Bool → Nat → List Bool
  | 0, _, frames, _ => frames
  | iters + 1, reads, frames, silent =>
    match reads with
    | [] => recordAux maxSilent iters [] frames silent
    | none :: rest => recordAux maxSilent iters rest frames silent
    | some sp :: rest =>
      if maxSilent ≤ (if sp then 0 else silent + 1) ∧
          maxSilent < (frames ++ [sp]).length
      then frames ++ [sp]
      else recordAux maxSilent iters rest (frames ++ [sp])
            (if sp then 0 else silent + 1)

/-- `record_until_silence` from src/audio.py, returning the recorded
frame sequence (the returned bytes are the concatenation of these
frames). -/
def record_until_silence (maxSilent maxFrames : Nat)
    (reads : List (Option Bool)) : List Bool :=
  recordAux maxSilent maxFrames reads [] 0

lemma recordAux_length (maxSilent : Nat) :
    ∀ (iters : Nat) (reads : List (Option Bool)) (frames : List Bool)
      (silent : Nat),
      (recordAux maxSilent iters reads frames silent).length ≤
        frames.length + iters := by
  intro iters
  induction iters with
  | zero => intro reads frames silent; simp [recordAux]
  | succ n ih =>
    intro reads frames silent
    match reads with
    | [] =>
      rw [recordAux]
      exact (ih [] frames silent).trans (by omega)
    | none :: rest =>
      rw [recordAux]
      exact (ih rest frames silent).trans (by omega)
    | some sp :: rest =>
      rw [recordAux]
      by_cases hc : maxSilent ≤ (if sp then 0 else silent + 1) ∧
          maxSilent < (frames ++ [sp]).length
      · rw [if_pos hc]
        simp only [List.length_append, List.length_cons, List.length_nil]
        omega
      · rw [if_neg hc]
        refine (ih rest (frames ++ [sp]) _).trans ?_
        simp only [List.length_append, List.length_cons, List.length_nil]
        omega

/-- C2: for every configuration and every read sequence (timeouts,
continuous speech, or total silence alike) the recorder terminates and
returns at most `max_frames` frames. -/
theorem c2_record_bounded (maxSilent maxFrames : Nat)
    (reads : List (Option Bool)) :
    (record_until_silence maxSilent maxFrames reads).length ≤ maxFrames := by
  have h := recordAux_length maxSilent maxFrames reads [] 0
  simpa [record_until_silence] using h

/-- Length of the leading run of non-speech (`false`) frames. -/
def leadingSilent : List Bool → Nat
  | false :: rest => leadingSilent rest + 1
  | _ => 0

/-- Length of the trailing run of non-speech frames: the value of the
`silent_frames` counter after processing the list (it is reset to zero
by every speech frame). -/
def trailingSilent (l : List Bool) : Nat := leadingSilent l.reverse

lemma trailingSilent_append_true (l : List Bool) :
    trailingSilent (l ++ [true]) = 0 := by
  simp [trailingSilent, leadingSilent]

lemma trailingSilent_append_false (l : List Bool) :
    trailingSilent (l ++ [false]) = trailingSilent l + 1 := by
  simp [trailingSilent, leadingSilent]

lemma leadingSilent_all_false :
    ∀ (l : List Bool), (∀ b ∈ l, b = false) → leadingSilent l = l.length
  | [], _ => rfl
  | b :: rest, h => by
    have hb : b = false := h b (List.mem_cons_self b rest)
    subst hb
    rw [show leadingSilent (false :: rest) = leadingSilent rest + 1 from rfl]
    rw [leadingSilent_all_false rest (fun x hx => h x (List.mem_cons_of_mem _ hx))]
    simp

lemma trailingSilent_all_false (l : List Bool) (h : ∀ b ∈ l, b = false) :
    trailingSilent l = l.length := by
  rw [trailingSilent, leadingSilent_all_false]
  · simp
  · intro b hb
    exact h b (List.mem_reverse.mp hb)

lemma recordAux_nil_reads (maxSilent : Nat) :
    ∀ (iters : Nat) (frames : List Bool) (silent : Nat),
      recordAux maxSilent iters [] frames silent = frames
  | 0, _, _ => rfl
  | iters + 1, frames, silent => by
    rw [recordAux]
    exact recordAux_nil_reads maxSilent iters frames silent

/-- Characterization of the recording loop on a stream of successfully
read frames: the result extends the accumulator by a stream segment of
some length `n`, no earlier frame satisfied the exit test
(consecutive-silence count at threshold AND strictly more than threshold
frames collected), and if the loop stopped before exhausting budget and
stream then the exit test held at the last frame. -/
lemma recordAux_char (T : Nat) :
    ∀ (flags : List Bool) (iters : Nat) (frames : List Bool),
      ¬(T ≤ trailingSilent frames ∧ T < frames.length) →
      ∃ n, n ≤ iters ∧ n ≤ flags.length ∧
        recordAux T iters (flags.map some) frames (trailingSilent frames) =
          frames ++ flags.take n ∧
        (∀ k, k < n →
          ¬(T ≤ trailingSilent (frames ++ flags.take k) ∧
            T < frames.length + k)) ∧
        (n < iters → n < flags.length →
          T ≤ trailingSilent (frames ++ flags.take n) ∧
          T < frames.length + n) := by
  intro flags
  induction flags with
  | nil =>
    intro iters frames hent
    refine ⟨0, by omega, by omega, ?_, ?_, ?_⟩
    · rw [List.map_nil, recordAux_nil_reads]
      simp
    · intro k hk
      exact absurd hk (Nat.not_lt_zero k)
    · intro _ h
      exact absurd h (Nat.not_lt_zero 0)
  | cons b rest ih =>
    intro iters frames hent
    match iters with
    | 0 =>
      refine ⟨0, le_refl 0, by omega, by simp [recordAux], ?_, ?_⟩
      · intro k hk
        exact absurd hk (Nat.not_lt_zero k)
      · intro h
        exact absurd h (Nat.not_lt_zero 0)
    | n + 1 =>
      have hsil : (if b then 0 else trailingSilent frames + 1) =
          trailingSilent (frames ++ [b]) := by
        cases b <;>
          simp [trailingSilent_append_false, trailingSilent_append_true]
      rw [List.map_cons, recordAux, hsil]
      by_cases hc : T ≤ trailingSilent (frames ++ [b]) ∧
          T < (frames ++ [b]).length
      · refine ⟨1, by omega, by simp, ?_, ?_, ?_⟩
        · rw [if_pos hc]
          simp
        · intro k hk
          interval_cases k
          simpa using hent
        · intro _ _
          have h1 : (frames ++ [b]).length = frames.length + 1 := by simp
          constructor
          · simpa using hc.1
          · omega
      · rw [if_neg hc]
        obtain ⟨m, hmi, hml, heq, hB, hC⟩ := ih n (frames ++ [b]) hc
        refine ⟨m + 1, by omega, by simp; omega, ?_, ?_, ?_⟩
        · rw [heq]
          simp
        · intro k hk
          match k with
          | 0 => simpa using hent
          | j + 1 =>
            have hj : j < m := by omega
            have h3 := hB j hj
            rw [List.append_assoc] at h3
            simp only [List.singleton_append] at h3
            rw [List.take_succ_cons]
            have hlen : (frames ++ [b]).length = frames.length + 1 := by simp
            rw [hlen] at h3
            omega
        · intro h1 h2
          have h4 := hC (by omega) (by simpa using h2)
          rw [List.append_assoc] at h4
          simp only [List.singleton_append] at h4
          rw [List.take_succ_cons]
          have hlen : (frames ++ [b]).length = frames.length + 1 := by simp
          rw [hlen] at h4
          exact ⟨h4.1, by omega⟩

/-- Second definition, following the claim's words (C3): the same loop
but with the leading-silence guard read as `at least the threshold count
of frames collected in total` (`len(frames) >= max_silent_frames`)
instead of the code's strict `len(frames) > max_silent_frames`. -/
def recordClaimAux (maxSilent : Nat) :
    Nat → List (Option Bool) → List Bool → Nat → List Bool
  | 0, _, frames, _ => frames
  | iters + 1, reads, frames, silent =>
    match reads with
    | [] => recordClaimAux maxSilent iters [] frames silent
    | none :: rest => recordClaimAux maxSilent iters rest frames silent
    | some sp :: rest =>
      if maxSilent ≤ (if sp then 0 else silent + 1) ∧
          maxSilent ≤ (frames ++ [sp]).length
      then frames ++ [sp]
      else recordClaimAux maxSilent iters rest (frames ++ [sp])
            (if sp then 0 else silent + 1)

/-- The recorder as the claim describes it. -/
def record_until_silence_claim (maxSilent maxFrames : Nat)
    (reads : List (Option Bool)) : List Bool :=
  recordClaimAux maxSilent maxFrames reads [] 0

/-- C3 counterexample: with silence threshold 2 and ten all-non-speech
frames, the code records three frames, while the claimed stop rule
(consecutive count reaches the threshold AND at least that many frames
collected in total) stops after two; the claim as stated is false of
the code. -/
theorem c3_counterexample :
    (record_until_silence 2 10 (List.replicate 10 (some false))).length = 3 ∧
    (record_until_silence_claim 2 10 (List.replicate 10 (some false))).length = 2 ∧
    record_until_silence 2 10 (List.replicate 10 (some false)) ≠
      record_until_silence_claim 2 10 (List.replicate 10 (some false)) := by
  decide

/-- C3 (amended): the silence exit fires exactly at the first frame at
which the consecutive-non-speech count (reset to zero by any speech
frame, hence equal to the trailing non-speech run of the collected
frames) reaches the silence threshold AND strictly more than the
threshold count of frames has been collected in total; in particular on
all-non-speech input the recorder stops only once threshold + 1 frames
have accumulated (stream and max-duration budget permitting). -/
theorem c3_amended_silence_exit (T maxF : Nat) (flags : List Bool) :
    record_until_silence T maxF (flags.map some) =
      flags.take (record_until_silence T maxF (flags.map some)).length ∧
    (∀ k, k < (record_until_silence T maxF (flags.map some)).length →
      ¬(T ≤ trailingSilent (flags.take k) ∧ T < k)) ∧
    ((record_until_silence T maxF (flags.map some)).length < maxF →
     (record_until_silence T maxF (flags.map some)).length < flags.length →
      T ≤ trailingSilent (record_until_silence T maxF (flags.map some)) ∧
      T < (record_until_silence T maxF (flags.map some)).length) ∧
    ((∀ b ∈ flags, b = false) →
      (record_until_silence T maxF (flags.map some)).length =
        min maxF (min flags.length (T + 1))) := by
  have hz : trailingSilent ([] : List Bool) = 0 := rfl
  have hent : ¬(T ≤ trailingSilent ([] : List Bool) ∧
      T < ([] : List Bool).length) := by
    rw [hz]
    simp
  obtain ⟨n, hni, hnl, heq, hB, hC⟩ := recordAux_char T flags maxF [] hent
  simp only [List.nil_append, List.length_nil, Nat.zero_add] at hB hC
  have hr : record_until_silence T maxF (flags.map some) = flags.take n := by
    rw [record_until_silence, ← hz, heq]
    simp
  have hlen : (record_until_silence T maxF (flags.map some)).length = n := by
    rw [hr, List.length_take]
    omega
  refine ⟨?_, ?_, ?_, ?_⟩
  · rw [hlen, hr]
  · intro k hk
    rw [hlen] at hk
    have := hB k hk
    simpa using this
  · intro h1 h2
    rw [hlen] at h1 h2
    have := hC h1 h2
    rw [hlen, hr]
    simpa using this
  · intro hall
    rw [hlen]
    have htake : ∀ k, k ≤ flags.length →
        trailingSilent (flags.take k) = k := by
      intro k hk
      rw [trailingSilent_all_false]
      · rw [List.length_take]; omega
      · intro x hx
        exact hall x (List.mem_of_mem_take hx)
    have hub : n ≤ T + 1 := by
      by_contra hcon
      have hk : T + 1 < n := by omega
      have h5 := hB (T + 1) hk
      rw [htake (T + 1) (by omega)] at h5
      omega
    have hlow : n < maxF → n < flags.length → T < n := by
      intro h1 h2
      have h6 := hC h1 h2
      rw [htake n (by omega)] at h6
      omega
    rw [min_def, min_def]
    split_ifs <;> omega

/-- Witness for C3 (amended): threshold 2 over five all-non-speech
frames records exactly three frames. -/
theorem c3_amended_silence_exit_witness :
    (record_until_silence 2 10 ((List.replicate 5 false).map some)).length =
      min 10 (min (List.replicate 5 false).length (2 + 1)) :=
  (c3_amended_silence_exit 2 10 (List.replicate 5 false)).2.2.2 (by decide)

/-! ## Wake word gating (src/wake_word.py)

The external openWakeWord scorer is scripted: `pred i` is the list of
(keyword, score) pairs `self.model.predict` returns for the i-th chunk
fed since the call started.  Python float scores are only ever compared
with `>=`, so they are modelled by an arbitrary linear order `α`.  The
audio stream is a list of read results: `none` for a timed-out read,
`some samples` for a captured frame's sample list. -/

/-- The model chunk size (1280 samples at 16 kHz, about 80 ms). -/
def CHUNK_SIZE : Nat := 1280

/-- `WakeWordDetector.detect`: scan the prediction's (name, score) pairs
and return true on the first score at or above the threshold. -/
def detect {α : Type} [LinearOrder α] (threshold : α) :
    List (String × α) → Bool
  | [] => false
  | (_, score) :: rest =>
    if threshold ≤ score then true else detect threshold rest

/-- `DEFAULT_THRESHOLD` from src/wake_word.py (the float 0.5, as a
rational). -/
def DEFAULT_THRESHOLD : Rat := 1 / 2

/-- Result of one `wait_for_wake_word` run. -/
structure WakeRun where
  trigger : Option Nat
  buffer : List Int
  fed : List (List Int)
  resetCalled : Bool
  consumed : List (Option (List Int))
  restReads : List (Option (List Int))
  deriving DecidableEq

/-- The inner `while len(audio_buffer) >= chunk_size` loop: slice off
exactly one chunk at a time, feed it to the scorer, and stop on the
first detection.  Structural fuel bounds the number of slices; any fuel
at least the buffer length is enough (a slice removes 1280 samples).
Returns (trigger index, remaining buffer, next chunk index, chunks fed
so far). -/
def sliceLoopF {α : Type} [LinearOrder α] (th : α)
    (pred : Nat → List (String × α)) :
    Nat → List Int → Nat → List (List Int) →
    Option Nat × List Int × Nat × List (List Int)
  | 0, b, i, f => (none, b, i, f)
  | fuel + 1, b, i, f =>
    if CHUNK_SIZE ≤ b.length then
      if detect th (pred i) then
        (some i, b.drop CHUNK_SIZE, i + 1, f ++ [b.take CHUNK_SIZE])
      else
        sliceLoopF th pred fuel (b.drop CHUNK_SIZE) (i + 1)
          (f ++ [b.take CHUNK_SIZE])
    else (none, b, i, f)

/-- The outer `while True` read loop of `wait_for_wake_word`: a `none`
read is skipped (`continue`); a frame's samples are appended to the
accumulator and the slice loop runs.  On detection the scorer is reset
(`detector.reset()`) and the call returns.  An exhausted scripted stream
(which in the source would block forever) ends the run with no trigger.
`cons` accumulates the reads consumed so far. -/
def waitAux {α : Type} [LinearOrder α] (th : α)
    (pred : Nat → List (String × α)) :
    List (Option (List Int)) → List Int → Nat → List (List Int) →
    List (Option (List Int)) → WakeRun
  | [], b, _, f, cons => ⟨none, b, f, false, cons, []⟩
  | none :: rest, b, i, f, cons =>
    waitAux th pred rest b i f (cons ++ [none])
  | some samples :: rest, b, i, f, cons =>
    match sliceLoopF th pred (b ++ samples).length (b ++ samples) i f with
    | (some t, b2, _, f2) =>
      ⟨some t, b2, f2, true, cons ++ [some samples], rest⟩
    | (none, b2, i2, f2) =>
      waitAux th pred rest b2 i2 f2 (cons ++ [some samples])

/-- `wait_for_wake_word` from src/wake_word.py, over a scripted stream
and scorer. -/
def wait_for_wake_word {α : Type} [LinearOrder α] (th : α)
    (pred : Nat → List (String × α))
    (reads : List (Option (List Int))) : WakeRun :=
  waitAux th pred reads [] 0 [] []

lemma detect_iff {α : Type} [LinearOrder α] (th : α) :
    ∀ (scores : List (String × α)),
      detect th scores = true ↔ ∃ p ∈ scores, th ≤ p.2
  | [] => by simp [detect]
  | (name, score) :: rest => by
    rw [detect]
    by_cases h : th ≤ score
    · simp [h]
    · rw [if_neg h, detect_iff th rest]
      constructor
      · rintro ⟨p, hp, hle⟩
        exact ⟨p, List.mem_cons_of_mem _ hp, hle⟩
      · rintro ⟨p, hp, hle⟩
        rcases List.mem_cons.mp hp with heq | hmem
        · subst heq; exact absurd hle h
        · exact ⟨p, hmem, hle⟩

/-- Full characterization of the slice loop, given enough fuel. -/
lemma sliceLoopF_spec {α : Type} [LinearOrder α] (th : α)
    (pred : Nat → List (String × α)) :
    ∀ (fuel : Nat) (b : List Int) (i : Nat) (f : List (List Int)),
      b.length ≤ fuel →
      (∀ c ∈ (sliceLoopF th pred fuel b i f).2.2.2,
        c ∈ f ∨ c.length = CHUNK_SIZE) ∧
      (sliceLoopF th pred fuel b i f).2.2.2.join ++
        (sliceLoopF th pred fuel b i f).2.1 = f.join ++ b ∧
      (i ≤ (sliceLoopF th pred fuel b i f).2.2.1 ∧
        (sliceLoopF th pred fuel b i f).2.2.2.length =
          f.length + ((sliceLoopF th pred fuel b i f).2.2.1 - i)) ∧
      ((sliceLoopF th pred fuel b i f).1 = none →
        (sliceLoopF th pred fuel b i f).2.1.length < CHUNK_SIZE ∧
        (∀ j, i ≤ j → j < (sliceLoopF th pred fuel b i f).2.2.1 →
          detect th (pred j) = false)) ∧
      (∀ t, (sliceLoopF th pred fuel b i f).1 = some t →
        detect th (pred t) = true ∧ i ≤ t ∧
        t + 1 = (sliceLoopF th pred fuel b i f).2.2.1 ∧
        (∀ j, i ≤ j → j < t → detect th (pred j) = false)) := by
  intro fuel
  induction fuel with
  | zero =>
    intro b i f hfuel
    have hb : b.length = 0 := by omega
    rw [sliceLoopF]
    refine ⟨?_, ?_, ?_, ?_, ?_⟩
    · intro c hc; exact Or.inl hc
    · rfl
    · refine ⟨le_refl i, ?_⟩
      show f.length = f.length + (i - i)
      omega
    · intro _
      refine ⟨?_, ?_⟩
      · show b.length < CHUNK_SIZE
        rw [CHUNK_SIZE]
        omega
      · intro j hij hjlt
        have hjlt2 : j < i := hjlt
        omega
    · intro t ht; cases ht
  | succ n ih =>
    intro b i f hfuel
    rw [sliceLoopF]
    by_cases hlen : CHUNK_SIZE ≤ b.length
    · rw [if_pos hlen]
      by_cases hdet : detect th (pred i) = true
      · rw [if_pos hdet]
        refine ⟨?_, ?_, ?_, ?_, ?_⟩
        · intro c hc
          rcases List.mem_append.mp hc with hmem | hmem
          · exact Or.inl hmem
          · right
            rw [List.mem_singleton.mp hmem, List.length_take]
            omega
        · simp [List.join_append]
        · simp
        · intro hnone; cases hnone
        · intro t ht
          have hti : i = t := by
            simpa using ht
          subst hti
          refine ⟨hdet, le_refl i, by simp, ?_⟩
          intro j hij hjt
          omega
      · rw [if_neg hdet]
        have hfuel2 : (b.drop CHUNK_SIZE).length ≤ n := by
          rw [List.length_drop, CHUNK_SIZE] at *
          omega
        obtain ⟨ih1, ih2, ih3, ih4, ih5⟩ :=
          ih (b.drop CHUNK_SIZE) (i + 1) (f ++ [b.take CHUNK_SIZE]) hfuel2
        refine ⟨?_, ?_, ?_, ?_, ?_⟩
        · intro c hc
          rcases ih1 c hc with hmem | hl
          · rcases List.mem_append.mp hmem with hm2 | hm2
            · exact Or.inl hm2
            · right
              rw [List.mem_singleton.mp hm2, List.length_take]
              omega
          · exact Or.inr hl
        · rw [ih2]
          simp [List.join_append]
        · refine ⟨by omega, ?_⟩
          rw [ih3.2]
          have := ih3.1
          simp only [List.length_append, List.length_cons, List.length_nil]
          omega
        · intro hnone
          obtain ⟨hb2, hall⟩ := ih4 hnone
          refine ⟨hb2, ?_⟩
          intro j hij hjlt
          by_cases hji : j = i
          · subst hji
            exact Bool.not_eq_true _ ▸ (by simpa using hdet)
          · exact hall j (by omega) hjlt
        · intro t ht
          obtain ⟨h1, h2, h3, h4⟩ := ih5 t ht
          refine ⟨h1, by omega, h3, ?_⟩
          intro j hij hjt
          by_cases hji : j = i
          · subst hji
            simpa using hdet
          · exact h4 j (by omega) hjt
    · rw [if_neg hlen]
      refine ⟨?_, ?_, ?_, ?_, ?_⟩
      · intro c hc; exact Or.inl hc
      · rfl
      · refine ⟨le_refl i, ?_⟩
        show f.length = f.length + (i - i)
        omega
      · intro _
        refine ⟨?_, ?_⟩
        · show b.length < CHUNK_SIZE
          omega
        · intro j hij hjlt
          have hjlt2 : j < i := hjlt
          omega
      · intro t ht; cases ht

/-- Full characterization of the read/accumulate loop.  The entry
invariants (chunk index equal to the fed count, all earlier chunks
scored below threshold, join of fed chunks plus buffer equal to the join
of consumed samples, all fed chunks full-size, buffer below one chunk)
hold at the initial state and are maintained. -/
lemma waitAux_spec {α : Type} [LinearOrder α] (th : α)
    (pred : Nat → List (String × α)) :
    ∀ (reads : List (Option (List Int))) (b : List Int) (i : Nat)
      (f : List (List Int)) (cons : List (Option (List Int))),
      i = f.length →
      (∀ j, j < i → detect th (pred j) = false) →
      f.join ++ b = (cons.filterMap id).join →
      (∀ c ∈ f, c.length = CHUNK_SIZE) →
      b.length < CHUNK_SIZE →
      (∀ c ∈ (waitAux th pred reads b i f cons).fed,
        c.length = CHUNK_SIZE) ∧
      (waitAux th pred reads b i f cons).fed.join ++
          (waitAux th pred reads b i f cons).buffer =
        ((waitAux th pred reads b i f cons).consumed.filterMap id).join ∧
      (waitAux th pred reads b i f cons).consumed ++
          (waitAux th pred reads b i f cons).restReads = cons ++ reads ∧
      ((waitAux th pred reads b i f cons).trigger = none →
        (waitAux th pred reads b i f cons).buffer.length < CHUNK_SIZE ∧
        (waitAux th pred reads b i f cons).resetCalled = false ∧
        (∀ j, j < (waitAux th pred reads b i f cons).fed.length →
          detect th (pred j) = false)) ∧
      (∀ t, (waitAux th pred reads b i f cons).trigger = some t →
        detect th (pred t) = true ∧
        (∀ j, j < t → detect th (pred j) = false) ∧
        (waitAux th pred reads b i f cons).resetCalled = true ∧
        t + 1 = (waitAux th pred reads b i f cons).fed.length) := by
  intro reads
  induction reads with
  | nil =>
    intro b i f cons hidx hprev hjoin hchunks hbuf
    rw [waitAux]
    refine ⟨hchunks, hjoin, by simp, ?_, ?_⟩
    · intro _
      exact ⟨hbuf, rfl, fun j hj => hprev j (hidx ▸ hj)⟩
    · intro t ht; cases ht
  | cons r rest ih =>
    intro b i f cons hidx hprev hjoin hchunks hbuf
    match r with
    | none =>
      rw [waitAux]
      obtain ⟨w1, w2, w3, w4, w5⟩ :=
        ih b i f (cons ++ [none]) hidx hprev (by simpa using hjoin) hchunks hbuf
      refine ⟨w1, w2, ?_, w4, w5⟩
      rw [w3]
      simp
    | some samples =>
      rw [waitAux]
      obtain ⟨s1, s2, s3, s4, s5⟩ :=
        sliceLoopF_spec th pred (b ++ samples).length (b ++ samples) i f
          (le_refl _)
      rcases hsl : sliceLoopF th pred (b ++ samples).length (b ++ samples) i f
        with ⟨tr, b2, i2, f2⟩
      rw [hsl] at s1 s2 s3 s4 s5
      simp only at s1 s2 s3 s4 s5
      have hjoin2 : f2.join ++ b2 = ((cons ++ [some samples]).filterMap id).join := by
        rw [s2, ← List.append_assoc, hjoin]
        simp [List.join_append]
      have hchunks2 : ∀ c ∈ f2, c.length = CHUNK_SIZE := by
        intro c hc
        rcases s1 c hc with hmem | hl
        · exact hchunks c hmem
        · exact hl
      match tr with
      | some t =>
        simp only
        obtain ⟨d1, d2, d3, d4⟩ := s5 t rfl
        refine ⟨hchunks2, hjoin2, by simp, ?_, ?_⟩
        · intro hnone; cases hnone
        · intro t2 ht2
          have htt : t = t2 := by
            simpa using ht2
          subst htt
          refine ⟨d1, ?_, by trivial, ?_⟩
          · intro j hj
            by_cases hji : j < i
            · exact hprev j hji
            · exact d4 j (by omega) hj
          · have e1 := s3.1
            have e2 := s3.2
            show t + 1 = f2.length
            omega
      | none =>
        simp only
        obtain ⟨hb2, hall⟩ := s4 rfl
        have hidx2 : i2 = f2.length := by
          rw [s3.2, ← hidx]
          have := s3.1
          omega
        have hprev2 : ∀ j, j < i2 → detect th (pred j) = false := by
          intro j hj
          by_cases hji : j < i
          · exact hprev j hji
          · exact hall j (by omega) hj
        obtain ⟨w1, w2, w3, w4, w5⟩ :=
          ih b2 i2 f2 (cons ++ [some samples]) hidx2 hprev2 hjoin2 hchunks2 hb2
        refine ⟨w1, w2, ?_, w4, w5⟩
        rw [w3]
        simp

/-- C6: `detect` reports a wake word exactly when some returned
per-keyword score is at least the threshold; and a `wait_for_wake_word`
run returns at the first accumulated model-frame slice whose prediction
crosses the threshold — on trigger the scorer was reset before
returning, every earlier slice scored below threshold, and with no
trigger no fed slice crossed the threshold and no reset happened. -/
theorem c6_wake_first_trigger {α : Type} [LinearOrder α] (th : α)
    (pred : Nat → List (String × α))
    (reads : List (Option (List Int))) :
    (∀ scores : List (String × α),
      detect th scores = true ↔ ∃ p ∈ scores, th ≤ p.2) ∧
    (∀ t, (wait_for_wake_word th pred reads).trigger = some t →
      detect th (pred t) = true ∧
      (∀ j, j < t → detect th (pred j) = false) ∧
      (wait_for_wake_word th pred reads).resetCalled = true ∧
      t + 1 = (wait_for_wake_word th pred reads).fed.length) ∧
    ((wait_for_wake_word th pred reads).trigger = none →
      (wait_for_wake_word th pred reads).resetCalled = false ∧
      (∀ j, j < (wait_for_wake_word th pred reads).fed.length →
        detect th (pred j) = false)) := by
  obtain ⟨w1, w2, w3, w4, w5⟩ :=
    waitAux_spec th pred reads [] 0 [] [] rfl (by omega) rfl (by simp)
      (by simp [CHUNK_SIZE])
  refine ⟨detect_iff th, w5, ?_⟩
  intro hnone
  obtain ⟨_, hr, hall⟩ := w4 hnone
  exact ⟨hr, hall⟩

/-- Scripted scorer for the wake witnesses (scores in the linear order
of naturals): slice 1 crosses a threshold of 1, slice 0 does not. -/
def predW : Nat → List (String × Nat) := fun i =>
  if i = 1 then [("hey_jarvis", 2)] else [("hey_jarvis", 0)]

/-- Scripted stream for the wake witnesses: two reads of 1280 samples
and one timed-out read. -/
def readsW : List (Option (List Int)) :=
  [some (List.replicate 1280 7), none, some (List.replicate 1280 5)]

set_option maxRecDepth 40000 in
/-- Witness for C6: on the scripted stream the run triggers at slice 1,
slice 0 scored below threshold, and the scorer was reset. -/
theorem c6_wake_first_trigger_witness :
    detect 1 (predW 1) = true ∧
    (wait_for_wake_word 1 predW readsW).resetCalled = true := by
  have h := (c6_wake_first_trigger 1 predW readsW).2.1 1 (by decide)
  exact ⟨h.1, h.2.2.1⟩

/-- C7: every chunk fed to the scorer has exactly the model frame size
(1280 samples); the concatenation of the fed chunks plus the leftover
accumulator equals the concatenation of all samples consumed from the
stream, in order (no sample skipped or duplicated), so the fed samples
are an initial segment of the consumed samples; the stream is consumed
front to back; and when no slice triggered, the accumulator holds less
than one model frame (a slice is taken only while at least one frame's
worth is available). -/
theorem c7_wake_chunking {α : Type} [LinearOrder α] (th : α)
    (pred : Nat → List (String × α))
    (reads : List (Option (List Int))) :
    (∀ c ∈ (wait_for_wake_word th pred reads).fed, c.length = CHUNK_SIZE) ∧
    (wait_for_wake_word th pred reads).fed.join ++
        (wait_for_wake_word th pred reads).buffer =
      (((wait_for_wake_word th pred reads).consumed.filterMap id).join) ∧
    (wait_for_wake_word th pred reads).consumed ++
        (wait_for_wake_word th pred reads).restReads = reads ∧
    ((wait_for_wake_word th pred reads).trigger = none →
      (wait_for_wake_word th pred reads).buffer.length < CHUNK_SIZE) := by
  obtain ⟨w1, w2, w3, w4, w5⟩ :=
    waitAux_spec th pred reads [] 0 [] [] rfl (by omega) rfl (by simp)
      (by simp [CHUNK_SIZE])
  refine ⟨w1, w2, by simpa using w3, ?_⟩
  intro hnone
  exact (w4 hnone).1

set_option maxRecDepth 40000 in
/-- Witness for C7: the scripted run ends with an empty accumulator and
full-size chunks. -/
theorem c7_wake_chunking_witness :
    (wait_for_wake_word (3 : Nat) predW readsW).trigger = none ∧
    (wait_for_wake_word (3 : Nat) predW readsW).buffer.length < CHUNK_SIZE := by
  refine ⟨by decide, ?_⟩
  exact (c7_wake_chunking (3 : Nat) predW readsW).2.2.2 (by decide)

/-! ## Audio output lock (src/main.py)

`run_voice` and `start_timer_daemon` share one `threading.Lock`
(`audio_lock`); each wraps its single `speak` playback in
`with audio_lock: ...`.  The two activities are modelled as an
interleaved transition system: each thread acquires (only when the lock
is free), plays while holding, and releases what it acquired — the
semantics of `threading.Lock` plus the `with` statement. -/

/-- Progress of one playback request through its `with audio_lock`
block. -/
inductive LockPC where
  | idle
  | holding
  | done
  deriving DecidableEq

/-- Joint state: the main turn loop's playback, the timer daemon's
playback, and the lock holder (`some false` = main, `some true` =
timer daemon). -/
structure LockState where
  mainPC : LockPC
  timerPC : LockPC
  lock : Option Bool
  deriving DecidableEq

/-- Initial state: neither playback started, lock free. -/
def lockInit : LockState := ⟨LockPC.idle, LockPC.idle, none⟩

/-- Interleaved steps of the two activities.  An acquire succeeds only
when the lock is free (threading.Lock blocks otherwise); a release
happens only from inside the `with` block, returning the lock the
thread itself holds. -/
inductive LockStep : LockState → LockState → Prop where
  | mainAcquire (s : LockState) :
      s.mainPC = LockPC.idle → s.lock = none →
      LockStep s ⟨LockPC.holding, s.timerPC, some false⟩
  | mainRelease (s : LockState) :
      s.mainPC = LockPC.holding → s.lock = some false →
      LockStep s ⟨LockPC.done, s.timerPC, none⟩
  | timerAcquire (s : LockState) :
      s.timerPC = LockPC.idle → s.lock = none →
      LockStep s ⟨s.mainPC, LockPC.holding, some true⟩
  | timerRelease (s : LockState) :
      s.timerPC = LockPC.holding → s.lock = some true →
      LockStep s ⟨s.mainPC, LockPC.done, none⟩

/-- States reachable from the initial state by interleaving. -/
inductive LockReachable : LockState → Prop where
  | init : LockReachable lockInit
  | step {s t : LockState} :
      LockReachable s → LockStep s t → LockReachable t

lemma lockReachable_inv (s : LockState) (h : LockReachable s) :
    (s.mainPC = LockPC.holding ↔ s.lock = some false) ∧
    (s.timerPC = LockPC.holding ↔ s.lock = some true) := by
  induction h with
  | init => simp [lockInit]
  | step hr hs ih =>
    cases hs with
    | mainAcquire h1 h2 =>
      constructor
      · exact ⟨fun _ => rfl, fun _ => rfl⟩
      · constructor
        · intro hT
          have hx := ih.2.mp hT
          rw [h2] at hx
          cases hx
        · intro hF
          simp at hF
    | mainRelease h1 h2 =>
      constructor
      · constructor
        · intro hx; cases hx
        · intro hx; cases hx
      · constructor
        · intro hT
          have hx := ih.2.mp hT
          rw [h2] at hx
          simp at hx
        · intro hF
          cases hF
    | timerAcquire h1 h2 =>
      constructor
      · constructor
        · intro hT
          have hx := ih.1.mp hT
          rw [h2] at hx
          cases hx
        · intro hF
          simp at hF
      · exact ⟨fun _ => rfl, fun _ => rfl⟩
    | timerRelease h1 h2 =>
      constructor
      · constructor
        · intro hT
          have hx := ih.1.mp hT
          rw [h2] at hx
          simp at hx
        · intro hF
          cases hF
      · constructor
        · intro hx; cases hx
        · intro hx; cases hx

/-- C4: in every reachable interleaving of the main turn loop's playback
and the timer daemon's playback, at most one of the two holds
`audio_lock` — the two `with audio_lock: speak(...)` blocks are never
simultaneously inside their critical sections, so the acquire/release
intervals of the two playbacks are disjoint. -/
theorem c4_audio_lock_exclusion (s : LockState) (h : LockReachable s) :
    ¬(s.mainPC = LockPC.holding ∧ s.timerPC = LockPC.holding) := by
  rintro ⟨hm, ht⟩
  obtain ⟨i1, i2⟩ := lockReachable_inv s h
  have h1 := i1.mp hm
  have h2 := i2.mp ht
  rw [h1] at h2
  cases h2

/-- Witness for C4: the state in which the main loop has acquired the
lock is reachable, and there the timer daemon is not holding it. -/
theorem c4_audio_lock_exclusion_witness :
    ¬((⟨LockPC.holding, LockPC.idle, some false⟩ : LockState).mainPC =
        LockPC.holding ∧
      (⟨LockPC.holding, LockPC.idle, some false⟩ : LockState).timerPC =
        LockPC.holding) :=
  c4_audio_lock_exclusion ⟨LockPC.holding, LockPC.idle, some false⟩
    (LockReachable.step LockReachable.init
      (LockStep.mainAcquire lockInit rfl rfl))

/-! ## The voice turn loop (src/main.py, run_voice)

One iteration of the `while True` loop is a turn: wake detection,
recording, the minimum-length check, transcription, chat completion
(with tool loop), persistence, and speech.  The external collaborators
are scripted per turn; each may raise (`Except.error`), which the source
does not catch anywhere inside the loop.  The event list records the
externally observable calls in order. -/

/-- Observable events of a voice turn. -/
inductive Ev where
  | wake
  | record (byteLen : Nat)
  | transcribe
  | chat
  | save
  | speak
  deriving DecidableEq

deriving instance DecidableEq for Except

/-- Script for one turn: the captured utterance's byte length and the
outcomes of the three external service calls. -/
structure TurnScript where
  audioLen : Nat
  transcribed : Except String String
  processed : Except String String
  spoken : Except String Unit
  deriving DecidableEq

/-- One iteration of the run_voice loop body.  Mirrors src/main.py lines
110-133: wake, record, discard below 1000 bytes, transcribe, discard
empty text, process, save, speak; an exception from a collaborator
propagates (there is no try/except in the loop body). -/
def voice_turn (t : TurnScript) : List Ev × Except String Unit :=
  if t.audioLen < 1000 then
    ([Ev.wake, Ev.record t.audioLen], Except.ok ())
  else
    match t.transcribed with
    | Except.error e =>
      ([Ev.wake, Ev.record t.audioLen, Ev.transcribe], Except.error e)
    | Except.ok text =>
      if text.trim = "" then
        ([Ev.wake, Ev.record t.audioLen, Ev.transcribe], Except.ok ())
      else
        match t.processed with
        | Except.error e =>
          ([Ev.wake, Ev.record t.audioLen, Ev.transcribe, Ev.chat],
           Except.error e)
        | Except.ok _ =>
          match t.spoken with
          | Except.error e =>
            ([Ev.wake, Ev.record t.audioLen, Ev.transcribe, Ev.chat,
              Ev.save, Ev.speak], Except.error e)
          | Except.ok _ =>
            ([Ev.wake, Ev.record t.audioLen, Ev.transcribe, Ev.chat,
              Ev.save, Ev.speak], Except.ok ())

/-- The `while True` loop of run_voice over a finite script of turns
(the scripted stream ends the run).  A propagating exception terminates
the loop, carrying the events observed so far; src/main.py has no
per-turn exception handler, only the `finally` that stops the timer
daemon. -/
def run_voice : List TurnScript → List Ev × Except String Unit
  | [] => ([], Except.ok ())
  | t :: rest =>
    match voice_turn t with
    | (ev, Except.error e) => (ev, Except.error e)
    | (ev, Except.ok _) =>
      ((ev ++ (run_voice rest).1), (run_voice rest).2)

/-- A turn whose transcription call raises (e.g. a network timeout). -/
def badTurn : TurnScript :=
  ⟨2000, Except.error "network timeout", Except.ok "resp", Except.ok ()⟩

/-- A turn in which every collaborator succeeds. -/
def goodTurn : TurnScript :=
  ⟨2000, Except.ok "hello", Except.ok "resp", Except.ok ()⟩

/-- C5 counterexample: a transcription error in the first turn makes the
whole voice loop terminate with that error; the second scripted wake is
never serviced (exactly one wake event is observed), contradicting the
claim that every in-turn error returns the state machine to Idle and the
loop continues. -/
theorem c5_counterexample :
    run_voice [badTurn, goodTurn] =
      ([Ev.wake, Ev.record 2000, Ev.transcribe],
        Except.error "network timeout") ∧
    (run_voice [badTurn, goodTurn]).1.count Ev.wake = 1 := by
  decide

/-- C5 (amended): an error raised by transcription, chat completion, or
speech synthesis inside a turn is not caught: the voice loop terminates
with that error and the remaining wake detections are never serviced
(only the short-audio and empty-transcription cases return the turn to
Idle and continue). -/
theorem c5_amended_error_terminates (t : TurnScript) (e : String)
    (rest : List TurnScript) (h : (voice_turn t).2 = Except.error e) :
    run_voice (t :: rest) = ((voice_turn t).1, Except.error e) := by
  rcases hv : voice_turn t with ⟨ev, out⟩
  rw [run_voice, hv]
  rw [hv] at h
  have h2 : out = Except.error e := h
  subst h2
  rfl

/-- Witness for C5 (amended) at the scripted failing turn. -/
theorem c5_amended_error_terminates_witness :
    run_voice [badTurn] =
      ((voice_turn badTurn).1, Except.error "network timeout") :=
  c5_amended_error_terminates badTurn "network timeout" [] (by decide)

/-- C9: a captured utterance below the 1000-byte minimum ends the turn
immediately (back to Idle with no error), the transcription service is
never invoked in that turn, and the loop goes on to service the
following wake detections. -/
theorem c9_short_audio_skips_transcription (t : TurnScript)
    (rest : List TurnScript) (h : t.audioLen < 1000) :
    voice_turn t = ([Ev.wake, Ev.record t.audioLen], Except.ok ()) ∧
    Ev.transcribe ∉ (voice_turn t).1 ∧
    run_voice (t :: rest) =
      (Ev.wake :: Ev.record t.audioLen :: (run_voice rest).1,
       (run_voice rest).2) := by
  have hv : voice_turn t = ([Ev.wake, Ev.record t.audioLen], Except.ok ()) := by
    rw [voice_turn, if_pos h]
  refine ⟨hv, ?_, ?_⟩
  · rw [hv]
    simp
  · rw [run_voice, hv]
    rfl

/-- Witness for C9: a 400-byte utterance. -/
theorem c9_short_audio_skips_transcription_witness :
    voice_turn ⟨400, Except.ok "hi", Except.ok "r", Except.ok ()⟩ =
      ([Ev.wake, Ev.record 400], Except.ok ()) ∧
    Ev.transcribe ∉
      (voice_turn ⟨400, Except.ok "hi", Except.ok "r", Except.ok ()⟩).1 ∧
    run_voice [⟨400, Except.ok "hi", Except.ok "r", Except.ok ()⟩] =
      (Ev.wake :: Ev.record 400 :: (run_voice []).1, (run_voice []).2) :=
  c9_short_audio_skips_transcription
    ⟨400, Except.ok "hi", Except.ok "r", Except.ok ()⟩ [] (by decide)

/-! ## Timer time parsing (src/tools/timer.py, _parse_time_input)

The clock-time branch of `_parse_time_input`: match the (already
stripped and lowercased) input against the anchored pattern of one or
two digits, a colon, exactly two digits, optional whitespace, and an
optional am/pm suffix; apply the 12-hour adjustment; build today's
datetime at that wall-clock time via `now.replace(...)` — which raises
(here: `none`) when the adjusted hour exceeds 23 or the minute exceeds
59 — and push it to tomorrow when it is not strictly after `now`.
A naive `datetime` is modelled as a day count plus the microsecond of
day (`now.usod < usecPerDay` for every real datetime); `timedelta`
arithmetic on naive datetimes is exact 24-hour arithmetic. -/

/-- A naive Python datetime: day number and microsecond of day. -/
structure PDateTime where
  day : Nat
  usod : Nat
  deriving DecidableEq

/-- Microseconds in one day. -/
def usecPerDay : Nat := 86400000000

/-- Total microseconds since day zero (the order on datetimes). -/
def toUsec (d : PDateTime) : Nat := d.day * usecPerDay + d.usod

/-- Numeric value of an ascii digit. -/
def digitVal (c : Char) : Nat := c.toNat - 48

/-- Match the regex tail after the minutes: optional whitespace, then an
optional am/pm suffix, then end of input.  Returns the suffix
(`some false` = am, `some true` = pm, `none` = absent). -/
def matchSuffix : List Char → Option (Option Bool)
  | [] => some none
  | c :: rest =>
    if c.isWhitespace then matchSuffix rest
    else if c :: rest = [ 'a', 'm'] then some (some false)
    else if c :: rest = [ 'p', 'm'] then some (some true)
    else none

/-- Match the anchored clock pattern (one or two digits, a colon, two
digits, optional whitespace and am/pm), returning hour value, minute
value and suffix. -/
def matchClock : List Char → Option (Nat × Nat × Option Bool)
  | c1 :: ':' :: m1 :: m2 :: rest =>
    if c1.isDigit && m1.isDigit && m2.isDigit then
      (matchSuffix rest).map
        (fun p => (digitVal c1, 10 * digitVal m1 + digitVal m2, p))
    else none
  | c1 :: c2 :: ':' :: m1 :: m2 :: rest =>
    if c1.isDigit && c2.isDigit && m1.isDigit && m2.isDigit then
      (matchSuffix rest).map
        (fun p => (10 * digitVal c1 + digitVal c2,
                   10 * digitVal m1 + digitVal m2, p))
    else none
  | _ => none

/-- The clock-time branch of `_parse_time_input`: 12-hour adjustment,
`now.replace(hour, minute, second=0, microsecond=0)` (invalid fields
raise, modelled as `none`), and the roll-over to tomorrow when the
target is not strictly in the future.  (The duration branch, tried
first in the source, can never match an input containing a colon.) -/
def parse_time_clock (now : PDateTime) (s : List Char) : Option PDateTime :=
  match matchClock s with
  | none => none
  | some (h, m, period) =>
    let hour := if period = some true ∧ h ≠ 12 then h + 12
                else if period = some false ∧ h = 12 then 0
                else h
    if hour ≤ 23 ∧ m ≤ 59 then
      let tUsod := (hour * 3600 + m * 60) * 1000000
      if toUsec ⟨now.day, tUsod⟩ ≤ toUsec now then
        some ⟨now.day + 1, tUsod⟩
      else
        some ⟨now.day, tUsod⟩
    else none

/-- C10: every clock-time input the parser accepts yields a fire-at
datetime strictly after `now` and at most 24 hours ahead, and it lies on
the next day exactly when the named time of day has already passed (or
equals) the current moment today. -/
theorem c10_clock_time_bounds (now : PDateTime) (s : List Char)
    (fireAt : PDateTime) (hnow : now.usod < usecPerDay)
    (h : parse_time_clock now s = some fireAt) :
    toUsec now < toUsec fireAt ∧
    toUsec fireAt ≤ toUsec now + usecPerDay ∧
    (fireAt.day = now.day + 1 ↔
      toUsec ⟨now.day, fireAt.usod⟩ ≤ toUsec now) ∧
    (fireAt.day = now.day ∨ fireAt.day = now.day + 1) := by
  rw [parse_time_clock] at h
  rcases hm : matchClock s with _ | ⟨⟨hh, mm, period⟩⟩
  · rw [hm] at h
    cases h
  · rw [hm] at h
    simp only at h
    by_cases hv : (if period = some true ∧ hh ≠ 12 then hh + 12
                   else if period = some false ∧ hh = 12 then 0
                   else hh) ≤ 23 ∧ mm ≤ 59
    · rw [if_pos hv] at h
      obtain ⟨hv1, hv2⟩ := hv
      by_cases hle : toUsec ⟨now.day,
          ((if period = some true ∧ hh ≠ 12 then hh + 12
            else if period = some false ∧ hh = 12 then 0
            else hh) * 3600 + mm * 60) * 1000000⟩ ≤ toUsec now
      · rw [if_pos hle] at h
        have hfa : fireAt = ⟨now.day + 1,
            ((if period = some true ∧ hh ≠ 12 then hh + 12
              else if period = some false ∧ hh = 12 then 0
              else hh) * 3600 + mm * 60) * 1000000⟩ :=
          (Option.some.injEq _ _).mp h.symm
        subst hfa
        refine ⟨?_, ?_, ?_, Or.inr rfl⟩
        · simp only [toUsec, usecPerDay] at hle hnow ⊢
          omega
        · simp only [toUsec, usecPerDay] at hle hnow ⊢
          omega
        · constructor
          · intro _
            exact hle
          · intro _
            rfl
      · rw [if_neg hle] at h
        have hfa : fireAt = ⟨now.day,
            ((if period = some true ∧ hh ≠ 12 then hh + 12
              else if period = some false ∧ hh = 12 then 0
              else hh) * 3600 + mm * 60) * 1000000⟩ :=
          (Option.some.injEq _ _).mp h.symm
        subst hfa
        refine ⟨?_, ?_, ?_, Or.inl rfl⟩
        · simp only [toUsec, usecPerDay] at hle hnow ⊢
          omega
        · simp only [toUsec, usecPerDay] at hle hnow hv1 hv2 ⊢
          omega
        · constructor
          · intro hday
            have hd : now.day = now.day + 1 := hday
            omega
          · intro hx
            exact absurd hx hle
    · rw [if_neg hv] at h
      cases h

/-- Concrete `now` for the C10 witness: day 738000 at 08:20 (30000
seconds into the day). -/
def nowW : PDateTime := ⟨738000, 30000000000⟩

/-- Witness for C10: parsing "7:00am" at 08:20 schedules 7:00 tomorrow,
strictly in the future and within 24 hours. -/
theorem c10_clock_time_bounds_witness :
    toUsec nowW < toUsec (⟨738001, 25200000000⟩ : PDateTime) ∧
    toUsec (⟨738001, 25200000000⟩ : PDateTime) ≤ toUsec nowW + usecPerDay ∧
    ((⟨738001, 25200000000⟩ : PDateTime).day = nowW.day + 1 ↔
      toUsec ⟨nowW.day, (⟨738001, 25200000000⟩ : PDateTime).usod⟩ ≤
        toUsec nowW) ∧
    ((⟨738001, 25200000000⟩ : PDateTime).day = nowW.day ∨
     (⟨738001, 25200000000⟩ : PDateTime).day = nowW.day + 1) :=
  c10_clock_time_bounds nowW ([ '7', ':', '0', '0', 'a', 'm'])
    ⟨738001, 25200000000⟩ (by decide) (by decide)

end HomeAssistant
